import Mathlib

/-!
Verification of the pthreads background manager of `src/src/unix/uthreads.c`
(Allegro's asynchronous event processing with pthreads).

The file embeds the callback registry (`funcs` / `max_func`), the deferred
removal queue (`stale_funcs`), the interrupt gate (`cli_count`), and the
driver thread's tick conversion and reaping loop as pure Lean functions,
and proves the claimed properties about them.
-/

namespace Uthreads

/-- Callback handles (`bg_func` in the source) are opaque non-NULL function
pointers compared by identity; we model them as natural numbers.  An array
cell is `Option Handle`: `none` models a NULL entry. -/
abbrev Handle := Nat

/-- Constant `MAX_FUNCS` (uthreads.c line 32): capacity of both `funcs` and
`stale_funcs`. -/
def MAX_FUNCS : Nat := 16

/-! ### The interrupt gate (`cli_count`, uthreads.c lines 210-228) -/

/-- Models `bg_man_pthreads_disable_interrupts` (lines 218-223): under
`cli_mutex`, executes `cli_count++`. -/
def disable_interrupts (c : Int) : Int := c + 1

/-- Models `bg_man_pthreads_enable_interrupts` (lines 210-216): under
`cli_mutex`, executes `if (--cli_count == 0) pthread_cond_signal (&cli_cond)`.
Returns the new count and whether the condition was signalled. -/
def enable_interrupts (c : Int) : Int × Bool := (c - 1, decide (c - 1 = 0))

/-- Models `bg_man_pthreads_interrupts_disabled` (lines 225-228): `return
cli_count;`, an int read as a C truth value (true iff nonzero). -/
def interrupts_disabled (c : Int) : Bool := decide (c ≠ 0)

/-- One call into the gate: a `disable_interrupts` or an `enable_interrupts`. -/
inductive GateOp
  | dis
  | en
deriving DecidableEq

/-- Runs a sequence of gate calls against the counter, starting from `c`. -/
def applyGate (c : Int) : List GateOp → Int
  | [] => c
  | GateOp.dis :: ops => applyGate (disable_interrupts c) ops
  | GateOp.en :: ops => applyGate (enable_interrupts c).1 ops

/-- Number of `disable_interrupts` calls in a sequence. -/
def numDis : List GateOp → Nat
  | [] => 0
  | GateOp.dis :: ops => numDis ops + 1
  | GateOp.en :: ops => numDis ops

/-- Number of `enable_interrupts` calls in a sequence. -/
def numEn : List GateOp → Nat
  | [] => 0
  | GateOp.dis :: ops => numEn ops
  | GateOp.en :: ops => numEn ops + 1

theorem applyGate_eq (ops : List GateOp) (c : Int) :
    applyGate c ops = c + numDis ops - numEn ops := by
  induction ops generalizing c with
  | nil => simp [applyGate, numDis, numEn]
  | cons o ops ih =>
    cases o <;>
      simp only [applyGate, disable_interrupts, enable_interrupts, numDis, numEn, ih] <;>
      push_cast <;> ring

/-- C1: in any interleaving of N `disable` and M `enable` calls with M ≤ N,
`is_disabled` afterwards is true iff N > M, and an `enable` call signals the
condition (waking a thread blocked in the gate's condition wait) exactly when
it brings the count from one back to zero. -/
theorem C1_interrupt_gate (ops : List GateOp) (h : numEn ops ≤ numDis ops) :
    (interrupts_disabled (applyGate 0 ops) = true ↔ numEn ops < numDis ops)
    ∧ (∀ c : Int, ((enable_interrupts c).2 = true ↔ c - 1 = 0)) := by
  constructor
  · rw [applyGate_eq]
    simp only [interrupts_disabled, decide_eq_true_eq]
    omega
  · intro c
    simp [enable_interrupts]

/-- Witness for C1 at the concrete call sequence disable; disable; enable. -/
theorem C1_interrupt_gate_witness :
    (interrupts_disabled (applyGate 0 [GateOp.dis, GateOp.dis, GateOp.en]) = true ↔
      numEn [GateOp.dis, GateOp.dis, GateOp.en] < numDis [GateOp.dis, GateOp.dis, GateOp.en])
    ∧ (∀ c : Int, ((enable_interrupts c).2 = true ↔ c - 1 = 0)) :=
  C1_interrupt_gate [GateOp.dis, GateOp.dis, GateOp.en] (by decide)

/-! ### The callback registry (`funcs` / `max_func`, uthreads.c lines 34-36) -/

/-- The registry state: the `funcs` array (length `MAX_FUNCS` in well-formed
states) and `max_func`, documented in the source as "highest+1 used entry". -/
structure Registry where
  funcs : List (Option Handle)
  max_func : Nat
deriving DecidableEq

/-- Registry state established by `bg_man_pthreads_init` (lines 123-125):
all slots NULL, `max_func = 0`. -/
def initState : Registry := ⟨List.replicate MAX_FUNCS none, 0⟩

/-- Exit index of the scan `for (i = 0; i < bound && funcs[i] != f; i++)` run
over the first `bound` cells of the array (passed here as `l = funcs.take
bound`): the first position holding `f`, or `l.length` if there is none. -/
def scanIdx (f : Handle) : List (Option Handle) → Nat
  | [] => 0
  | x :: xs => if x = some f then 0 else scanIdx f xs + 1

/-- Exit index of the scan `for (i = 0; funcs[i] && i < MAX_FUNCS; i++)` of
`bg_man_pthreads_register_func` (line 156) over a length-`MAX_FUNCS` array:
the first empty position, or the array length if every cell is occupied.
(The C condition tests `funcs[i]` before `i < MAX_FUNCS`, so on a full array
the loop still exits at `i = MAX_FUNCS`, after an out-of-bounds read of
`funcs[MAX_FUNCS]`; the read set is modelled separately for C10.) -/
def firstEmptyIdx : List (Option Handle) → Nat
  | [] => 0
  | x :: xs => if x = none then 0 else firstEmptyIdx xs + 1

/-- Models the `do { max_func--; } while ((max_func > 0) && !funcs[max_func-1]);`
loop of `really_unregister_func` (lines 61-63) after the first decrement:
`dropTrailing funcs m` is the final `max_func` when the loop has already
decremented `max_func` to `m`. -/
def dropTrailing (funcs : List (Option Handle)) : Nat → Nat
  | 0 => 0
  | m + 1 => if funcs.getD m none = none then dropTrailing funcs m else m + 1

/-- Models `really_unregister_func` (uthreads.c lines 51-66): scan
`funcs[0..max_func)` for `f`; if absent return -1 leaving the state unchanged;
otherwise NULL the slot and, when it was the last used one (`i+1 == max_func`),
shrink `max_func` with the do-while loop. -/
def really_unregister_func (f : Handle) (s : Registry) : Int × Registry :=
  let i := scanIdx f (s.funcs.take s.max_func)
  if i = s.max_func then (-1, s)
  else
    let funcs' := s.funcs.set i none
    (0, ⟨funcs', if i + 1 = s.max_func then dropTrailing funcs' i else s.max_func⟩)

/-- Models `bg_man_pthreads_register_func` (uthreads.c lines 151-166): scan for
the first empty slot; if all `MAX_FUNCS` are occupied return -1; otherwise
store `f` there and bump `max_func` when the slot is exactly `max_func`.
(The surrounding disable/enable pair only takes the lock; it does not change
the registry state.) -/
def register_func (f : Handle) (s : Registry) : Int × Registry :=
  let i := firstEmptyIdx s.funcs
  if i = MAX_FUNCS then (-1, s)
  else
    (0, ⟨s.funcs.set i (some f),
         if i = s.max_func then s.max_func + 1 else s.max_func⟩)

/-- Models the deferred branch of `bg_man_pthreads_unregister_func`
(uthreads.c lines 186-201), taken when `pthread_mutex_trylock(&cli_mutex)`
returns EBUSY: under `stale_mutex`, scan `funcs[0..max_func)` for `f`; if
absent return -1; otherwise store `f` into the first empty `stale_funcs` slot
— or into none at all when the queue is full — and return 0 either way. -/
def unregister_deferred (f : Handle) (s : Registry) (q : List (Option Handle)) :
    Int × List (Option Handle) :=
  if scanIdx f (s.funcs.take s.max_func) = s.max_func then (-1, q)
  else
    let i := firstEmptyIdx q
    if i < MAX_FUNCS then (0, q.set i (some f)) else (0, q)

/-- Runs `bg_man_pthreads_register_func` once per handle of the list,
collecting the returned codes and the final registry. -/
def registerAll : List Handle → Registry → List Int × Registry
  | [], s => ([], s)
  | f :: fs, s =>
    let r := register_func f s
    let rest := registerAll fs r.2
    (r.1 :: rest.1, rest.2)

/-! ### Helper lemmas about array reads, the scans and the shrink loop -/

theorem getD_set (l : List (Option Handle)) (i j : Nat) (v : Option Handle) :
    (l.set i v).getD j none =
      if i = j ∧ i < l.length then v else l.getD j none := by
  induction l generalizing i j with
  | nil => simp
  | cons x xs ih =>
    cases i with
    | zero =>
      cases j with
      | zero => simp
      | succ j' => simp
    | succ i' =>
      cases j with
      | zero => simp
      | succ j' =>
        simp only [List.set_cons_succ, List.getD_cons_succ, ih i' j', List.length_cons]
        by_cases h : i' = j' ∧ i' < xs.length
        · rw [if_pos h, if_pos ⟨by omega, by omega⟩]
        · rw [if_neg h, if_neg (by omega)]

theorem getD_replicate_none (n j : Nat) :
    (List.replicate n (none : Option Handle)).getD j none = none := by
  induction n generalizing j with
  | zero => simp
  | succ n ih =>
    cases j with
    | zero => simp [List.replicate]
    | succ j' => simp [List.replicate, ih j']

theorem scanIdx_le_length (f : Handle) (l : List (Option Handle)) :
    scanIdx f l ≤ l.length := by
  induction l with
  | nil => simp [scanIdx]
  | cons x xs ih =>
    simp only [scanIdx, List.length_cons]
    split <;> omega

theorem scanIdx_eq_length_of_not_mem (f : Handle) (l : List (Option Handle))
    (h : some f ∉ l) : scanIdx f l = l.length := by
  induction l with
  | nil => simp [scanIdx]
  | cons x xs ih =>
    simp only [List.mem_cons, not_or] at h
    simp only [scanIdx, List.length_cons]
    rw [if_neg (fun hx => h.1 hx.symm), ih h.2]

theorem scanIdx_lt_length_of_mem (f : Handle) (l : List (Option Handle))
    (h : some f ∈ l) : scanIdx f l < l.length := by
  induction l with
  | nil => simp at h
  | cons x xs ih =>
    simp only [scanIdx, List.length_cons]
    split
    · omega
    · rename_i hx
      have hm : some f ∈ xs := by
        rcases List.mem_cons.mp h with h1 | h1
        · exact absurd h1.symm hx
        · exact h1
      have := ih hm
      omega

theorem scanIdx_found (f : Handle) (l : List (Option Handle))
    (h : scanIdx f l < l.length) :
    l.getD (scanIdx f l) none = some f ∧
      ∀ j < scanIdx f l, l.getD j none ≠ some f := by
  induction l with
  | nil => simp [scanIdx] at h
  | cons x xs ih =>
    simp only [scanIdx, List.length_cons] at h ⊢
    by_cases hx : x = some f
    · rw [if_pos hx]
      exact ⟨by simpa using hx, by omega⟩
    · rw [if_neg hx] at h ⊢
      have := ih (by omega)
      refine ⟨by simpa using this.1, ?_⟩
      intro j hj
      cases j with
      | zero => simpa using hx
      | succ j' =>
        simp only [List.getD_cons_succ]
        exact this.2 j' (by omega)

theorem firstEmptyIdx_le_length (l : List (Option Handle)) :
    firstEmptyIdx l ≤ l.length := by
  induction l with
  | nil => simp [firstEmptyIdx]
  | cons x xs ih =>
    simp only [firstEmptyIdx, List.length_cons]
    split <;> omega

theorem firstEmptyIdx_eq_length_of_not_mem (l : List (Option Handle))
    (h : none ∉ l) : firstEmptyIdx l = l.length := by
  induction l with
  | nil => simp [firstEmptyIdx]
  | cons x xs ih =>
    simp only [List.mem_cons, not_or] at h
    simp only [firstEmptyIdx, List.length_cons]
    rw [if_neg (fun hx => h.1 hx.symm), ih h.2]

theorem firstEmptyIdx_lt_length_of_mem (l : List (Option Handle))
    (h : none ∈ l) : firstEmptyIdx l < l.length := by
  induction l with
  | nil => simp at h
  | cons x xs ih =>
    simp only [firstEmptyIdx, List.length_cons]
    split
    · omega
    · rename_i hx
      have hm : none ∈ xs := by
        rcases List.mem_cons.mp h with h1 | h1
        · exact absurd h1.symm hx
        · exact h1
      have := ih hm
      omega

theorem firstEmptyIdx_found (l : List (Option Handle))
    (h : firstEmptyIdx l < l.length) :
    l.getD (firstEmptyIdx l) none = none ∧
      ∀ j < firstEmptyIdx l, l.getD j none ≠ none := by
  induction l with
  | nil => simp [firstEmptyIdx] at h
  | cons x xs ih =>
    simp only [firstEmptyIdx, List.length_cons] at h ⊢
    by_cases hx : x = none
    · rw [if_pos hx]
      exact ⟨by simpa using hx, by omega⟩
    · rw [if_neg hx] at h ⊢
      have := ih (by omega)
      refine ⟨by simpa using this.1, ?_⟩
      intro j hj
      cases j with
      | zero => simpa using hx
      | succ j' =>
        simp only [List.getD_cons_succ]
        exact this.2 j' (by omega)

theorem getD_mem (l : List (Option Handle)) (j : Nat) (hj : j < l.length) :
    l.getD j none ∈ l := by
  induction l generalizing j with
  | nil => simp at hj
  | cons x xs ih =>
    cases j with
    | zero => simp
    | succ j' =>
      simp only [List.getD_cons_succ, List.mem_cons]
      exact Or.inr (ih j' (by simpa using hj))

theorem getD_take (l : List (Option Handle)) (b k : Nat) (h : k < b) :
    (l.take b).getD k none = l.getD k none := by
  induction l generalizing b k with
  | nil => simp
  | cons x xs ih =>
    cases b with
    | zero => omega
    | succ b' =>
      cases k with
      | zero => simp
      | succ k' =>
        simp only [List.take_succ_cons, List.getD_cons_succ]
        exact ih b' k' (by omega)

theorem firstEmptyIdx_unique (l : List (Option Handle)) (j : Nat)
    (hj : j < l.length) (h1 : l.getD j none = none)
    (h2 : ∀ k < j, l.getD k none ≠ none) : firstEmptyIdx l = j := by
  induction l generalizing j with
  | nil => simp at hj
  | cons x xs ih =>
    cases j with
    | zero =>
      simp only [List.getD_cons_zero] at h1
      simp [firstEmptyIdx, h1]
    | succ j' =>
      have hx : x ≠ none := by
        have := h2 0 (by omega)
        simpa using this
      simp only [firstEmptyIdx, if_neg hx]
      have := ih j' (by simpa using hj) (by simpa using h1)
        (fun k hk => by simpa using h2 (k+1) (by omega))
      omega

theorem scanIdx_unique (f : Handle) (l : List (Option Handle)) (j : Nat)
    (hj : j < l.length) (h1 : l.getD j none = some f)
    (h2 : ∀ k < j, l.getD k none ≠ some f) : scanIdx f l = j := by
  induction l generalizing j with
  | nil => simp at hj
  | cons x xs ih =>
    cases j with
    | zero =>
      simp only [List.getD_cons_zero] at h1
      simp [scanIdx, h1]
    | succ j' =>
      have hx : x ≠ some f := by
        have := h2 0 (by omega)
        simpa using this
      simp only [scanIdx, if_neg hx]
      have := ih j' (by simpa using hj) (by simpa using h1)
        (fun k hk => by simpa using h2 (k+1) (by omega))
      omega

theorem dropTrailing_le (l : List (Option Handle)) (m : Nat) :
    dropTrailing l m ≤ m := by
  induction m with
  | zero => simp [dropTrailing]
  | succ m ih =>
    simp only [dropTrailing]
    split <;> omega

theorem dropTrailing_empty (l : List (Option Handle)) (m : Nat) :
    ∀ j, dropTrailing l m ≤ j → j < m → l.getD j none = none := by
  induction m with
  | zero => omega
  | succ m ih =>
    intro j h1 h2
    simp only [dropTrailing] at h1
    by_cases hm : l.getD m none = none
    · rw [if_pos hm] at h1
      by_cases hj : j = m
      · rw [hj]; exact hm
      · exact ih j h1 (by omega)
    · rw [if_neg hm] at h1
      omega

theorem dropTrailing_stop (l : List (Option Handle)) (m : Nat) :
    dropTrailing l m = 0 ∨ l.getD (dropTrailing l m - 1) none ≠ none := by
  induction m with
  | zero => left; rfl
  | succ m ih =>
    simp only [dropTrailing]
    by_cases hm : l.getD m none = none
    · rw [if_pos hm]; exact ih
    · rw [if_neg hm]; right; simpa using hm

/-! ### C2: registration -/

/-- C2: `register_func` fails with -1 exactly when all `MAX_FUNCS` slots are
occupied; otherwise it stores the handle in the first empty slot, bumping
`max_func` when that slot is exactly `max_func`; and from the empty initial
state 16 distinct registrations all succeed while a 17th fails. -/
theorem C2_register_func (f : Handle) (s : Registry)
    (hlen : s.funcs.length = MAX_FUNCS) :
    ((register_func f s).1 = -1 ↔ none ∉ s.funcs)
    ∧ (∀ j, j < MAX_FUNCS → s.funcs.getD j none = none →
        (∀ k < j, s.funcs.getD k none ≠ none) →
        register_func f s =
          (0, ⟨s.funcs.set j (some f),
               if j = s.max_func then s.max_func + 1 else s.max_func⟩))
    ∧ (registerAll ((List.range MAX_FUNCS).map (· + 1)) initState).1
        = List.replicate MAX_FUNCS 0
    ∧ (register_func 17
        (registerAll ((List.range MAX_FUNCS).map (· + 1)) initState).2).1 = -1 := by
  refine ⟨?_, ?_, by decide, by decide⟩
  · constructor
    · intro h
      simp only [register_func] at h
      by_cases hi : firstEmptyIdx s.funcs = MAX_FUNCS
      · intro hmem
        have := firstEmptyIdx_lt_length_of_mem s.funcs hmem
        omega
      · rw [if_neg hi] at h
        simp at h
    · intro hmem
      have := firstEmptyIdx_eq_length_of_not_mem s.funcs hmem
      simp [register_func, this, hlen]
  · intro j hj h1 h2
    have hju : firstEmptyIdx s.funcs = j :=
      firstEmptyIdx_unique s.funcs j (by omega) h1 h2
    simp [register_func, hju, Nat.ne_of_lt hj]

/-- Witness for C2 at `f = 1` and the empty initial registry. -/
theorem C2_register_func_witness :
    ((register_func 1 initState).1 = -1 ↔ none ∉ initState.funcs)
    ∧ (∀ j, j < MAX_FUNCS → initState.funcs.getD j none = none →
        (∀ k < j, initState.funcs.getD k none ≠ none) →
        register_func 1 initState =
          (0, ⟨initState.funcs.set j (some 1),
               if j = initState.max_func then initState.max_func + 1
               else initState.max_func⟩))
    ∧ (registerAll ((List.range MAX_FUNCS).map (· + 1)) initState).1
        = List.replicate MAX_FUNCS 0
    ∧ (register_func 17
        (registerAll ((List.range MAX_FUNCS).map (· + 1)) initState).2).1 = -1 :=
  C2_register_func 1 initState (by decide)

/-! ### C3: immediate unregistration -/

/-- C3: `really_unregister_func` returns -1 and leaves the registry unchanged
when the handle is absent from the slots below `max_func`; when the handle's
(first) slot is `i`, it empties that slot and returns 0, leaves `max_func`
alone when `i + 1 ≠ max_func`, and otherwise shrinks `max_func` to at most `i`,
past trailing empty slots only, stopping at 0 or just above an occupied slot. -/
theorem C3_really_unregister_func (f : Handle) (s : Registry)
    (hlen : s.funcs.length = MAX_FUNCS) (hmax : s.max_func ≤ MAX_FUNCS) :
    (some f ∉ s.funcs.take s.max_func → really_unregister_func f s = (-1, s))
    ∧ (∀ i, i < s.max_func → s.funcs.getD i none = some f →
        (∀ k < i, s.funcs.getD k none ≠ some f) →
        (really_unregister_func f s).1 = 0
        ∧ (really_unregister_func f s).2.funcs = s.funcs.set i none
        ∧ (i + 1 ≠ s.max_func → (really_unregister_func f s).2.max_func = s.max_func)
        ∧ (i + 1 = s.max_func →
            (really_unregister_func f s).2.max_func ≤ i
            ∧ (∀ j, (really_unregister_func f s).2.max_func ≤ j → j < s.max_func →
                (s.funcs.set i none).getD j none = none)
            ∧ ((really_unregister_func f s).2.max_func = 0
               ∨ (s.funcs.set i none).getD
                   ((really_unregister_func f s).2.max_func - 1) none ≠ none))) := by
  have hlt : s.funcs.take s.max_func = s.funcs.take s.max_func := rfl
  constructor
  · intro hmem
    have hscan : scanIdx f (s.funcs.take s.max_func) = s.max_func := by
      rw [scanIdx_eq_length_of_not_mem f _ hmem, List.length_take]
      omega
    simp [really_unregister_func, hscan]
  · intro i hi h1 h2
    have hscan : scanIdx f (s.funcs.take s.max_func) = i := by
      apply scanIdx_unique
      · rw [List.length_take]; omega
      · rw [getD_take _ _ _ hi]; exact h1
      · intro k hk
        rw [getD_take _ _ _ (by omega)]
        exact h2 k hk
    have hne : i ≠ s.max_func := by omega
    refine ⟨?_, ?_, ?_, ?_⟩
    · simp [really_unregister_func, hscan, hne]
    · simp [really_unregister_func, hscan, hne]
    · intro hlast
      simp [really_unregister_func, hscan, hne, hlast]
    · intro hlast
      have hres : (really_unregister_func f s).2.max_func
          = dropTrailing (s.funcs.set i none) i := by
        simp [really_unregister_func, hscan, hne, hlast]
      refine ⟨?_, ?_, ?_⟩
      · rw [hres]; exact dropTrailing_le _ i
      · intro j hj1 hj2
        by_cases hji : j = i
        · subst hji
          rw [getD_set]
          rw [if_pos ⟨rfl, by omega⟩]
        · have hji' : j < i := by omega
          rw [hres] at hj1
          exact dropTrailing_empty _ i j hj1 hji'
      · rw [hres]
        exact dropTrailing_stop (s.funcs.set i none) i

/-- Witness for C3 at a registry holding the single handle 5 in slot 0. -/
theorem C3_really_unregister_func_witness :
    (some 5 ∉ (Registry.mk (some 5 :: List.replicate 15 none) 1).funcs.take
        (Registry.mk (some 5 :: List.replicate 15 none) 1).max_func →
      really_unregister_func 5 (Registry.mk (some 5 :: List.replicate 15 none) 1) =
        (-1, Registry.mk (some 5 :: List.replicate 15 none) 1))
    ∧ (∀ i, i < (Registry.mk (some 5 :: List.replicate 15 none) 1).max_func →
        (Registry.mk (some 5 :: List.replicate 15 none) 1).funcs.getD i none = some 5 →
        (∀ k < i, (Registry.mk (some 5 :: List.replicate 15 none) 1).funcs.getD k none ≠ some 5) →
        (really_unregister_func 5 (Registry.mk (some 5 :: List.replicate 15 none) 1)).1 = 0
        ∧ (really_unregister_func 5 (Registry.mk (some 5 :: List.replicate 15 none) 1)).2.funcs
            = (Registry.mk (some 5 :: List.replicate 15 none) 1).funcs.set i none
        ∧ (i + 1 ≠ (Registry.mk (some 5 :: List.replicate 15 none) 1).max_func →
            (really_unregister_func 5 (Registry.mk (some 5 :: List.replicate 15 none) 1)).2.max_func
              = (Registry.mk (some 5 :: List.replicate 15 none) 1).max_func)
        ∧ (i + 1 = (Registry.mk (some 5 :: List.replicate 15 none) 1).max_func →
            (really_unregister_func 5 (Registry.mk (some 5 :: List.replicate 15 none) 1)).2.max_func ≤ i
            ∧ (∀ j, (really_unregister_func 5 (Registry.mk (some 5 :: List.replicate 15 none) 1)).2.max_func ≤ j →
                j < (Registry.mk (some 5 :: List.replicate 15 none) 1).max_func →
                ((Registry.mk (some 5 :: List.replicate 15 none) 1).funcs.set i none).getD j none = none)
            ∧ ((really_unregister_func 5 (Registry.mk (some 5 :: List.replicate 15 none) 1)).2.max_func = 0
               ∨ ((Registry.mk (some 5 :: List.replicate 15 none) 1).funcs.set i none).getD
                   ((really_unregister_func 5 (Registry.mk (some 5 :: List.replicate 15 none) 1)).2.max_func - 1) none
                   ≠ none))) :=
  C3_really_unregister_func 5 (Registry.mk (some 5 :: List.replicate 15 none) 1)
    (by decide) (by decide)

/-! ### C4, C5: the deferred removal path -/

theorem exists_getD_of_mem (l : List (Option Handle)) (x : Option Handle)
    (h : x ∈ l) : ∃ i, i < l.length ∧ l.getD i none = x := by
  induction l with
  | nil => simp at h
  | cons y ys ih =>
    rcases List.mem_cons.mp h with h1 | h1
    · exact ⟨0, by simp, by simp [h1.symm]⟩
    · obtain ⟨i, hi, hd⟩ := ih h1
      exact ⟨i + 1, by simp; omega, by simpa using hd⟩

/-- C4: the deferred branch of `bg_man_pthreads_unregister_func` first checks
presence in `funcs[0..max_func)` and fails with -1 when the handle is absent,
leaving the queue untouched; when present it returns 0 — even when the stale
queue has no empty slot, in which case the queue is left unchanged and the
removal request is silently lost. -/
theorem C4_unregister_deferred (f : Handle) (s : Registry)
    (q : List (Option Handle))
    (hlen : s.funcs.length = MAX_FUNCS) (hmax : s.max_func ≤ MAX_FUNCS) :
    (some f ∉ s.funcs.take s.max_func → unregister_deferred f s q = (-1, q))
    ∧ (some f ∈ s.funcs.take s.max_func →
        (unregister_deferred f s q).1 = 0
        ∧ (none ∉ q → (unregister_deferred f s q).2 = q)) := by
  constructor
  · intro hmem
    have hscan : scanIdx f (s.funcs.take s.max_func) = s.max_func := by
      rw [scanIdx_eq_length_of_not_mem f _ hmem, List.length_take]
      omega
    simp [unregister_deferred, hscan]
  · intro hmem
    have hscan : scanIdx f (s.funcs.take s.max_func) < s.max_func := by
      have := scanIdx_lt_length_of_mem f _ hmem
      rw [List.length_take] at this
      omega
    constructor
    · simp only [unregister_deferred, if_neg (Nat.ne_of_lt hscan)]
      split <;> rfl
    · intro hq
      have hfull : firstEmptyIdx q = q.length :=
        firstEmptyIdx_eq_length_of_not_mem q hq
      simp only [unregister_deferred, if_neg (Nat.ne_of_lt hscan), hfull]
      split
      · -- storing at index `q.length` is past the end, so `List.set` is the
        -- identity: even a short full queue loses the request
        exact List.set_eq_of_length_le le_rfl
      · rfl

/-- Witness for C4 at a registry holding handle 5 in slot 0 and a full queue. -/
theorem C4_unregister_deferred_witness :
    (some 5 ∉ (Registry.mk (some 5 :: List.replicate 15 none) 1).funcs.take
        (Registry.mk (some 5 :: List.replicate 15 none) 1).max_func →
      unregister_deferred 5 (Registry.mk (some 5 :: List.replicate 15 none) 1)
          (List.replicate 16 (some 9)) =
        (-1, List.replicate 16 (some 9)))
    ∧ (some 5 ∈ (Registry.mk (some 5 :: List.replicate 15 none) 1).funcs.take
        (Registry.mk (some 5 :: List.replicate 15 none) 1).max_func →
        (unregister_deferred 5 (Registry.mk (some 5 :: List.replicate 15 none) 1)
            (List.replicate 16 (some 9))).1 = 0
        ∧ (none ∉ List.replicate 16 (some (9 : Handle)) →
            (unregister_deferred 5 (Registry.mk (some 5 :: List.replicate 15 none) 1)
              (List.replicate 16 (some 9))).2 = List.replicate 16 (some 9))) :=
  C4_unregister_deferred 5 (Registry.mk (some 5 :: List.replicate 15 none) 1)
    (List.replicate 16 (some 9)) (by decide) (by decide)

/-- C5: for a handle present in no slot of the registry, both removal paths of
`bg_man_pthreads_unregister_func` — the immediate `really_unregister_func`
taken when the trylock succeeds, and the deferred queueing branch taken when
it fails — return -1. -/
theorem C5_unregister_not_found (f : Handle) (s : Registry)
    (q : List (Option Handle))
    (hlen : s.funcs.length = MAX_FUNCS) (hmax : s.max_func ≤ MAX_FUNCS)
    (habs : ∀ i, s.funcs.getD i none ≠ some f) :
    (really_unregister_func f s).1 = -1 ∧ (unregister_deferred f s q).1 = -1 := by
  have hmem : some f ∉ s.funcs.take s.max_func := by
    intro hmem
    obtain ⟨i, hi, hd⟩ := exists_getD_of_mem _ _ hmem
    rw [List.length_take] at hi
    rw [getD_take _ _ _ (by omega)] at hd
    exact habs i hd
  have hscan : scanIdx f (s.funcs.take s.max_func) = s.max_func := by
    rw [scanIdx_eq_length_of_not_mem f _ hmem, List.length_take]
    omega
  constructor
  · simp [really_unregister_func, hscan]
  · simp [unregister_deferred, hscan]

/-- Witness for C5 at the empty initial registry and handle 1. -/
theorem C5_unregister_not_found_witness :
    (really_unregister_func 1 initState).1 = -1
    ∧ (unregister_deferred 1 initState (List.replicate MAX_FUNCS none)).1 = -1 :=
  C5_unregister_not_found 1 initState (List.replicate MAX_FUNCS none)
    (by decide) (by decide)
    (fun i => by rw [show initState.funcs = List.replicate MAX_FUNCS none from rfl,
      getD_replicate_none]; simp)

/-! ### C6: the driver thread's reaping loop -/

/-- Models the reaping loop of `bg_man_pthreads_threadfunc` (uthreads.c lines
100-106): `for (n = 0; stale_funcs[n]; n++) { really_unregister_func
(stale_funcs[n]); stale_funcs[n] = NULL; }` under `stale_mutex` and the
registry lock.  `fuel` bounds the iteration count; each iteration consumes one
cell, so `q.length` iterations reach the sentinel (past the end `getD` yields
the NULL sentinel and the returned pair is the same one the loop exit
produces). -/
def drainFrom (fuel n : Nat) (q : List (Option Handle)) (s : Registry) :
    List (Option Handle) × Registry :=
  match fuel with
  | 0 => (q, s)
  | fuel + 1 =>
    match q.getD n none with
    | none => (q, s)
    | some f => drainFrom fuel (n + 1) (q.set n none) (really_unregister_func f s).2

/-- The whole reaping phase, started at `n = 0`. -/
def drain (q : List (Option Handle)) (s : Registry) :
    List (Option Handle) × Registry :=
  drainFrom q.length 0 q s

/-- The sentinel discipline of the stale queue (spec data model: a sequence
"terminated implicitly by the first empty slot"): after a NULL cell every
later cell is NULL too. -/
def SentinelQueue (q : List (Option Handle)) : Prop :=
  ∀ i j, i ≤ j → q.getD i none = none → q.getD j none = none

/-- The handles of the occupied queue cells before the sentinel, in slot
order. -/
def queueHandles : List (Option Handle) → List Handle
  | [] => []
  | none :: _ => []
  | some f :: rest => f :: queueHandles rest

theorem getD_append_right (l₁ l₂ : List (Option Handle)) (n : Nat)
    (h : l₁.length ≤ n) :
    (l₁ ++ l₂).getD n none = l₂.getD (n - l₁.length) none := by
  induction l₁ generalizing n with
  | nil => simp
  | cons x xs ih =>
    cases n with
    | zero => simp at h
    | succ n' =>
      simp only [List.cons_append, List.getD_cons_succ, List.length_cons]
      rw [ih n' (by simpa using h)]
      congr 1
      omega

theorem set_append_len (l₁ l₂ : List (Option Handle)) (v : Option Handle) :
    (l₁ ++ l₂).set l₁.length v = l₁ ++ l₂.set 0 v := by
  induction l₁ with
  | nil => simp
  | cons x xs ih => simp [List.set, ih]

theorem set_append_at (l₁ l₂ : List (Option Handle)) (v : Option Handle)
    (n : Nat) (h : n = l₁.length) :
    (l₁ ++ l₂).set n v = l₁ ++ l₂.set 0 v := by
  subst h
  exact set_append_len l₁ l₂ v

theorem queueHandles_length_le (q : List (Option Handle)) :
    (queueHandles q).length ≤ q.length := by
  induction q with
  | nil => simp [queueHandles]
  | cons x rest ih =>
    cases x with
    | none => simp [queueHandles]
    | some f => simp [queueHandles]; omega

theorem eq_replicate_none (l : List (Option Handle))
    (h : ∀ j, l.getD j none = none) : l = List.replicate l.length none := by
  induction l with
  | nil => simp
  | cons x rest ih =>
    have h0 : x = none := by simpa using h 0
    have ht : rest = List.replicate rest.length none :=
      ih (fun j => by simpa using h (j + 1))
    rw [List.length_cons, List.replicate_succ, ← ht, h0]

theorem sentinel_decomp (q : List (Option Handle)) (h : SentinelQueue q) :
    q = (queueHandles q).map some
        ++ List.replicate (q.length - (queueHandles q).length) none := by
  induction q with
  | nil => simp [queueHandles]
  | cons x rest ih =>
    cases x with
    | none =>
      have hall : ∀ j, rest.getD j none = none := by
        intro j
        have := h 0 (j + 1) (by omega) (by simp)
        simpa using this
      have := eq_replicate_none rest hall
      simp only [queueHandles, List.map_nil, List.nil_append, List.length_cons,
        List.length_nil, Nat.sub_zero, List.replicate_succ]
      rw [← this]
    | some f =>
      have hrest : SentinelQueue rest := by
        intro i j hij hi
        have := h (i + 1) (j + 1) (by omega) (by simpa using hi)
        simpa using this
      have := ih hrest
      simp only [queueHandles, List.map_cons, List.cons_append, List.length_cons]
      rw [show rest.length + 1 - ((queueHandles rest).length + 1)
          = rest.length - (queueHandles rest).length by omega]
      rw [← this]

theorem drainFrom_shape (hs : List Handle) (r : Nat) (s : Registry)
    (n fuel : Nat) (hfuel : hs.length ≤ fuel) :
    drainFrom fuel n
        (List.replicate n none ++ hs.map some ++ List.replicate r none) s
      = (List.replicate (n + hs.length + r) none,
         hs.foldl (fun t f => (really_unregister_func f t).2) s) := by
  induction hs generalizing n s fuel with
  | nil =>
    have hq : List.replicate n (none : Option Handle) ++ List.map some []
        ++ List.replicate r none = List.replicate (n + 0 + r) none := by
      simp [← List.replicate_add]
    have hget : (List.replicate n (none : Option Handle) ++ List.map some []
        ++ List.replicate r none).getD n none = none := by
      rw [hq, getD_replicate_none]
    cases fuel with
    | zero => rw [hq]; rfl
    | succ fuel' =>
      simp only [drainFrom, hget]
      rw [hq]
      simp
  | cons h hs ih =>
    cases fuel with
    | zero => simp at hfuel
    | succ fuel' =>
      have hget : (List.replicate n (none : Option Handle)
          ++ List.map some (h :: hs) ++ List.replicate r none).getD n none
          = some h := by
        rw [List.append_assoc,
          getD_append_right _ _ n (by simp), List.length_replicate,
          Nat.sub_self]
        simp
      have hset : (List.replicate n (none : Option Handle)
          ++ List.map some (h :: hs) ++ List.replicate r none).set n none
          = List.replicate (n + 1) none ++ List.map some hs
            ++ List.replicate r none := by
        rw [List.append_assoc, set_append_at _ _ _ n (by simp)]
        simp [List.replicate_succ' n, List.append_assoc]
      simp only [drainFrom, hget, hset]
      rw [ih ((really_unregister_func h s).2) (n + 1) fuel' (by simpa using hfuel)]
      rw [show n + 1 + hs.length + r = n + (h :: hs).length + r by
        simp only [List.length_cons]; omega]
      rfl

/-- C6: under the queue's sentinel discipline, the reaping loop performs an
immediate unregistration for every occupied queue slot, in slot order,
discarding each call's result (so a -1 NotFound outcome is a harmless no-op),
clears each processed slot, and leaves every queue slot empty. -/
theorem C6_drain (q : List (Option Handle)) (s : Registry)
    (hq : SentinelQueue q) :
    (drain q s).1 = List.replicate q.length none
    ∧ (drain q s).2
        = (queueHandles q).foldl (fun t f => (really_unregister_func f t).2) s
    ∧ (∀ f : Handle, some f ∈ q ↔ f ∈ queueHandles q) := by
  have hdec := sentinel_decomp q hq
  have hlen := queueHandles_length_le q
  have hshape := drainFrom_shape (queueHandles q)
    (q.length - (queueHandles q).length) s 0 q.length (by omega)
  simp only [List.replicate_zero, List.nil_append] at hshape
  have h3 := congrArg (fun l => drainFrom q.length 0 l s) hdec
  simp only at h3
  have hdrain : drain q s
      = (List.replicate (0 + (queueHandles q).length
          + (q.length - (queueHandles q).length)) none,
         (queueHandles q).foldl (fun t f => (really_unregister_func f t).2) s) := by
    simp only [drain]
    rw [h3]
    exact hshape
  have hcount : 0 + (queueHandles q).length
      + (q.length - (queueHandles q).length) = q.length := by omega
  refine ⟨?_, ?_, ?_⟩
  · rw [hdrain, hcount]
  · rw [hdrain]
  · intro f
    constructor
    · intro hmem
      rw [hdec] at hmem
      rcases List.mem_append.mp hmem with h1 | h1
      · rcases List.mem_map.mp h1 with ⟨g, hg, hfg⟩
        cases hfg
        exact hg
      · have := List.eq_of_mem_replicate h1
        simp at this
    · intro hmem
      rw [hdec]
      exact List.mem_append.mpr (Or.inl (List.mem_map.mpr ⟨f, hmem, rfl⟩))

/-- Witness for C6: queue holding handles 3 and 4 then a sentinel, against a
registry holding handle 3 only (so the second removal is a NotFound no-op). -/
theorem C6_drain_witness :
    (drain (List.map some [3, 4] ++ List.replicate 1 none)
        (Registry.mk (some 3 :: List.replicate 15 none) 1)).1
      = List.replicate (List.map some [3, 4] ++ List.replicate 1 none).length none
    ∧ (drain (List.map some [3, 4] ++ List.replicate 1 none)
        (Registry.mk (some 3 :: List.replicate 15 none) 1)).2
      = (queueHandles (List.map some [3, 4] ++ List.replicate 1 none)).foldl
          (fun t f => (really_unregister_func f t).2)
          (Registry.mk (some 3 :: List.replicate 15 none) 1)
    ∧ (∀ f : Handle, some f ∈ List.map some [3, 4] ++ List.replicate 1 none
        ↔ f ∈ queueHandles (List.map some [3, 4] ++ List.replicate 1 none)) :=
  C6_drain (List.map some [3, 4] ++ List.replicate 1 none)
    (Registry.mk (some 3 :: List.replicate 15 none) 1)
    (by
      intro i j hij hi
      rcases Nat.lt_or_ge i 2 with h2 | h2
      · interval_cases i <;> simp at hi
      · have hj : 2 ≤ j := le_trans h2 hij
        rcases Nat.lt_or_ge j 3 with h3 | h3
        · have hj2 : j = 2 := by omega
          subst hj2
          rfl
        · rw [List.getD_eq_default]
          have hL : (List.map some [3, 4]
              ++ List.replicate 1 (none : Option Handle)).length = 3 := rfl
          omega)

/-! ### C7: the high-water invariant -/

/-- Registry states reachable from the `bg_man_pthreads_init` state by any
interleaving of registrations and immediate unregistrations. -/
inductive Reachable : Registry → Prop
  | init : Reachable initState
  | reg (f : Handle) {s : Registry} : Reachable s →
      Reachable (register_func f s).2
  | unreg (f : Handle) {s : Registry} : Reachable s →
      Reachable (really_unregister_func f s).2

/-- Well-formedness carried through the reachability induction: the array
keeps length `MAX_FUNCS`, `max_func` stays within capacity, and every slot at
index ≥ `max_func` is empty. -/
def RegistryWF (s : Registry) : Prop :=
  s.funcs.length = MAX_FUNCS ∧ s.max_func ≤ MAX_FUNCS
    ∧ ∀ i, s.max_func ≤ i → s.funcs.getD i none = none

theorem firstEmptyIdx_le_of_empty (l : List (Option Handle)) (j : Nat)
    (hj : j < l.length) (h : l.getD j none = none) : firstEmptyIdx l ≤ j := by
  have hmem : none ∈ l := h ▸ getD_mem l j hj
  have hlt := firstEmptyIdx_lt_length_of_mem l hmem
  by_contra hcon
  push_neg at hcon
  exact (firstEmptyIdx_found l hlt).2 j hcon h

theorem registryWF_init : RegistryWF initState := by
  refine ⟨by simp [initState], by simp [initState], ?_⟩
  intro i _
  rw [show initState.funcs = List.replicate MAX_FUNCS none from rfl,
    getD_replicate_none]

theorem registryWF_register (f : Handle) (s : Registry) (h : RegistryWF s) :
    RegistryWF (register_func f s).2 := by
  obtain ⟨hlen, hmax, hinv⟩ := h
  by_cases hi : firstEmptyIdx s.funcs = MAX_FUNCS
  · rw [show (register_func f s).2 = s by simp [register_func, hi]]
    exact ⟨hlen, hmax, hinv⟩
  · have hlt : firstEmptyIdx s.funcs < MAX_FUNCS :=
      lt_of_le_of_ne (hlen ▸ firstEmptyIdx_le_length s.funcs) hi
    have hle : firstEmptyIdx s.funcs ≤ s.max_func := by
      rcases Nat.lt_or_ge s.max_func MAX_FUNCS with hm | hm
      · exact firstEmptyIdx_le_of_empty s.funcs s.max_func (by omega)
          (hinv s.max_func le_rfl)
      · omega
    have hres : (register_func f s).2
        = ⟨s.funcs.set (firstEmptyIdx s.funcs) (some f),
           if firstEmptyIdx s.funcs = s.max_func then s.max_func + 1
           else s.max_func⟩ := by
      simp [register_func, hi]
    rw [hres]
    refine ⟨by simpa using hlen, ?_, ?_⟩
    · dsimp only
      split <;> omega
    · dsimp only
      intro j hj
      by_cases hc : firstEmptyIdx s.funcs = s.max_func
      · rw [if_pos hc] at hj
        have hne : firstEmptyIdx s.funcs ≠ j := by omega
        rw [getD_set, if_neg (fun hcon => hne hcon.1)]
        exact hinv j (by omega)
      · rw [if_neg hc] at hj
        have hlt2 : firstEmptyIdx s.funcs < s.max_func := lt_of_le_of_ne hle hc
        have hne : firstEmptyIdx s.funcs ≠ j := by omega
        rw [getD_set, if_neg (fun hcon => hne hcon.1)]
        exact hinv j hj

theorem registryWF_unregister (f : Handle) (s : Registry) (h : RegistryWF s) :
    RegistryWF (really_unregister_func f s).2 := by
  obtain ⟨hlen, hmax, hinv⟩ := h
  by_cases hi : scanIdx f (s.funcs.take s.max_func) = s.max_func
  · rw [show (really_unregister_func f s).2 = s by
      simp [really_unregister_func, hi]]
    exact ⟨hlen, hmax, hinv⟩
  · have hscanle : scanIdx f (s.funcs.take s.max_func) ≤ s.max_func := by
      have := scanIdx_le_length f (s.funcs.take s.max_func)
      rw [List.length_take] at this
      omega
    have hlt : scanIdx f (s.funcs.take s.max_func) < s.max_func :=
      lt_of_le_of_ne hscanle hi
    have hres : (really_unregister_func f s).2
        = ⟨s.funcs.set (scanIdx f (s.funcs.take s.max_func)) none,
           if scanIdx f (s.funcs.take s.max_func) + 1 = s.max_func then
             dropTrailing (s.funcs.set (scanIdx f (s.funcs.take s.max_func)) none)
               (scanIdx f (s.funcs.take s.max_func))
           else s.max_func⟩ := by
      simp [really_unregister_func, hi]
    rw [hres]
    by_cases hc : scanIdx f (s.funcs.take s.max_func) + 1 = s.max_func
    · refine ⟨by simpa using hlen, ?_, ?_⟩
      · dsimp only
        rw [if_pos hc]
        have := dropTrailing_le
          (s.funcs.set (scanIdx f (s.funcs.take s.max_func)) none)
          (scanIdx f (s.funcs.take s.max_func))
        omega
      · dsimp only
        rw [if_pos hc]
        intro j hj
        rcases Nat.lt_trichotomy j (scanIdx f (s.funcs.take s.max_func))
          with hj2 | hj2 | hj2
        · exact dropTrailing_empty _ _ j hj hj2
        · subst hj2
          rw [getD_set, if_pos ⟨rfl, by omega⟩]
        · have hne : scanIdx f (s.funcs.take s.max_func) ≠ j := by omega
          rw [getD_set, if_neg (fun hcon => hne hcon.1)]
          exact hinv j (by omega)
    · refine ⟨by simpa using hlen, ?_, ?_⟩
      · dsimp only
        rw [if_neg hc]
        exact hmax
      · dsimp only
        rw [if_neg hc]
        intro j hj
        have hne : scanIdx f (s.funcs.take s.max_func) ≠ j := by omega
        rw [getD_set, if_neg (fun hcon => hne hcon.1)]
        exact hinv j hj

theorem reachable_wf {s : Registry} (h : Reachable s) : RegistryWF s := by
  induction h with
  | init => exact registryWF_init
  | reg f _ ih => exact registryWF_register f _ ih
  | unreg f _ ih => exact registryWF_unregister f _ ih

/-- C7: in every registry state reachable from the initial state by register
and immediate-unregister operations, every slot at index ≥ `max_func` is
empty (interior gaps below `max_func` are allowed: nothing below `max_func`
is constrained). -/
theorem C7_high_water_invariant (s : Registry) (h : Reachable s) :
    ∀ i, s.max_func ≤ i → s.funcs.getD i none = none :=
  (reachable_wf h).2.2

/-- Witness for C7 at the state reached by registering handle 7 once,
evaluated at slot index 3 (which lies at or above the high-water mark 1). -/
theorem C7_high_water_invariant_witness :
    (register_func 7 initState).2.max_func ≤ 3
    ∧ (register_func 7 initState).2.funcs.getD 3 none = none :=
  ⟨by decide,
   C7_high_water_invariant (register_func 7 initState).2
     (Reachable.reg 7 Reachable.init) 3 (by decide)⟩

/-! ### C8: at-most-one-slot-per-handle -/

/-- Uniqueness of handles across slots: a handle occupies at most one slot. -/
def UniqueSlots (s : Registry) : Prop :=
  ∀ (f : Handle) (i j : Nat),
    s.funcs.getD i none = some f → s.funcs.getD j none = some f → i = j

/-- Registry states reachable when callers obey the discipline of never
registering a handle that is currently present in some slot (the code itself
performs no such check). -/
inductive ReachableDistinct : Registry → Prop
  | init : ReachableDistinct initState
  | reg (f : Handle) {s : Registry} : ReachableDistinct s →
      (∀ j, s.funcs.getD j none ≠ some f) →
      ReachableDistinct (register_func f s).2
  | unreg (f : Handle) {s : Registry} : ReachableDistinct s →
      ReachableDistinct (really_unregister_func f s).2

theorem uniqueSlots_init : UniqueSlots initState := by
  intro f i j h1 _
  rw [show initState.funcs = List.replicate MAX_FUNCS none from rfl,
    getD_replicate_none] at h1
  exact absurd h1 (by simp)

theorem uniqueSlots_register (f : Handle) (s : Registry) (h : UniqueSlots s)
    (habs : ∀ j, s.funcs.getD j none ≠ some f) :
    UniqueSlots (register_func f s).2 := by
  by_cases hi : firstEmptyIdx s.funcs = MAX_FUNCS
  · rw [show (register_func f s).2 = s by simp [register_func, hi]]
    exact h
  · have hres : (register_func f s).2.funcs
        = s.funcs.set (firstEmptyIdx s.funcs) (some f) := by
      simp [register_func, hi]
    intro g i j h1 h2
    rw [hres, getD_set] at h1 h2
    by_cases hci : firstEmptyIdx s.funcs = i ∧ firstEmptyIdx s.funcs < s.funcs.length
    · by_cases hcj : firstEmptyIdx s.funcs = j ∧ firstEmptyIdx s.funcs < s.funcs.length
      · omega
      · rw [if_pos hci] at h1
        rw [if_neg hcj] at h2
        cases h1
        exact absurd h2 (habs j)
    · rw [if_neg hci] at h1
      by_cases hcj : firstEmptyIdx s.funcs = j ∧ firstEmptyIdx s.funcs < s.funcs.length
      · rw [if_pos hcj] at h2
        cases h2
        exact absurd h1 (habs i)
      · rw [if_neg hcj] at h2
        exact h g i j h1 h2

theorem uniqueSlots_unregister (f : Handle) (s : Registry)
    (h : UniqueSlots s) : UniqueSlots (really_unregister_func f s).2 := by
  by_cases hi : scanIdx f (s.funcs.take s.max_func) = s.max_func
  · rw [show (really_unregister_func f s).2 = s by
      simp [really_unregister_func, hi]]
    exact h
  · have hres : (really_unregister_func f s).2.funcs
        = s.funcs.set (scanIdx f (s.funcs.take s.max_func)) none := by
      simp [really_unregister_func, hi]
    intro g i j h1 h2
    rw [hres, getD_set] at h1 h2
    by_cases hci : scanIdx f (s.funcs.take s.max_func) = i
        ∧ scanIdx f (s.funcs.take s.max_func) < s.funcs.length
    · rw [if_pos hci] at h1
      exact absurd h1 (by simp)
    · rw [if_neg hci] at h1
      by_cases hcj : scanIdx f (s.funcs.take s.max_func) = j
          ∧ scanIdx f (s.funcs.take s.max_func) < s.funcs.length
      · rw [if_pos hcj] at h2
        exact absurd h2 (by simp)
      · rw [if_neg hcj] at h2
        exact h g i j h1 h2

/-- Counterexample to C8 as stated: the state reached by registering handle 1
twice — reachable by register/unregister operations from the empty initial
state, since `bg_man_pthreads_register_func` never checks for duplicates —
holds handle 1 in slot 0 and again in slot 1. -/
theorem C8_counterexample_duplicate_handle :
    Reachable (register_func 1 (register_func 1 initState).2).2
    ∧ (register_func 1 (register_func 1 initState).2).2.funcs.getD 0 none = some 1
    ∧ (register_func 1 (register_func 1 initState).2).2.funcs.getD 1 none = some 1
    ∧ (0 : Nat) ≠ 1 :=
  ⟨Reachable.reg 1 (Reachable.reg 1 Reachable.init), by decide, by decide, by decide⟩

/-- C8 (amended): in every state reachable from the empty initial state by
register and immediate-unregister operations in which `register` is only ever
called with a handle not currently occupying any slot, each handle appears in
at most one slot.  (Registering an already-present handle does duplicate it,
as the counterexample shows.) -/
theorem C8_unique_slot_amended (s : Registry) (h : ReachableDistinct s) :
    ∀ (f : Handle) (i j : Nat),
      s.funcs.getD i none = some f → s.funcs.getD j none = some f → i = j := by
  induction h with
  | init => exact uniqueSlots_init
  | reg f _ habs ih => exact uniqueSlots_register f _ ih habs
  | unreg f _ ih => exact uniqueSlots_unregister f _ ih

/-- Witness for the amended C8 at the state reached by registering 1 then 2,
evaluated at handle 1 and slot indices 0 and 0. -/
theorem C8_unique_slot_amended_witness :
    (register_func 2 (register_func 1 initState).2).2.funcs.getD 0 none = some 1
    ∧ (0 : Nat) = 0 :=
  ⟨by decide,
   C8_unique_slot_amended (register_func 2 (register_func 1 initState).2).2
    (ReachableDistinct.reg 2
      (ReachableDistinct.reg 1 ReachableDistinct.init
        (fun j => by
          rw [show initState.funcs = List.replicate MAX_FUNCS none from rfl,
            getD_replicate_none]
          simp))
      (fun j => by
        rw [show (register_func 1 initState).2.funcs
            = some 1 :: List.replicate 15 none from rfl]
        cases j with
        | zero => simp
        | succ j' => rw [List.getD_cons_succ, getD_replicate_none]; simp))
    1 0 0 (by decide) (by decide)⟩

/-! ### C9: tick conversion -/

/-- Constant `INT_MAX` from `<limits.h>` for the 32-bit `int` of the unix
targets of this file. -/
def INT_MAX : Nat := 2147483647

/-- Models the chunk loop of `bg_man_pthreads_threadfunc` (uthreads.c lines
85-88): `i = MIN (interval, INT_MAX/(TIMERS_PER_SECOND/100)); interval -= i;
i = i * (TIMERS_PER_SECOND/100) / 10000L;`, accumulating the tick batches of
all chunks of one sample.  `kdiv` stands for `TIMERS_PER_SECOND/100` (the
rate is a build-time constant whose header is outside this file).  `fuel`
bounds the iteration count: each iteration consumes at least one microsecond
when `0 < kdiv ≤ INT_MAX`, so `interval` iterations suffice. -/
def ticksAux (kdiv : Nat) : Nat → Nat → Nat
  | 0, _ => 0
  | fuel + 1, interval =>
    if interval = 0 then 0
    else
      min interval (INT_MAX / kdiv) * kdiv / 10000
        + ticksAux kdiv fuel (interval - min interval (INT_MAX / kdiv))

/-- Total tick batch the loop computes for one elapsed-time sample. -/
def ticksOf (kdiv interval : Nat) : Nat := ticksAux kdiv interval interval

/-- Number of chunks (loop iterations) the loop spends on one sample. -/
def chunksAux (kdiv : Nat) : Nat → Nat → Nat
  | 0, _ => 0
  | fuel + 1, interval =>
    if interval = 0 then 0
    else 1 + chunksAux kdiv fuel (interval - min interval (INT_MAX / kdiv))

/-- Chunk count of one sample. -/
def chunksOf (kdiv interval : Nat) : Nat := chunksAux kdiv interval interval

theorem chunk_pos (kdiv interval : Nat) (hk : 0 < kdiv) (hk2 : kdiv ≤ INT_MAX)
    (h0 : interval ≠ 0) : 1 ≤ min interval (INT_MAX / kdiv) :=
  le_min (by omega) ((Nat.one_le_div_iff hk).mpr hk2)

theorem ticksAux_le (kdiv : Nat) (hk : 0 < kdiv) (hk2 : kdiv ≤ INT_MAX) :
    ∀ fuel interval, interval ≤ fuel →
      10000 * ticksAux kdiv fuel interval ≤ interval * kdiv := by
  intro fuel
  induction fuel with
  | zero =>
    intro interval hle
    simp [ticksAux]
  | succ fuel ih =>
    intro interval hle
    by_cases h0 : interval = 0
    · simp [ticksAux, h0]
    · simp only [ticksAux, if_neg h0]
      have hi1 := chunk_pos kdiv interval hk hk2 h0
      have hle2 : min interval (INT_MAX / kdiv) ≤ interval := Nat.min_le_left _ _
      have h1 : min interval (INT_MAX / kdiv) * kdiv / 10000 * 10000
          ≤ min interval (INT_MAX / kdiv) * kdiv := Nat.div_mul_le_self _ _
      have h2 := ih (interval - min interval (INT_MAX / kdiv)) (by omega)
      have h3 : (interval - min interval (INT_MAX / kdiv)) * kdiv
          + min interval (INT_MAX / kdiv) * kdiv = interval * kdiv := by
        rw [← Nat.add_mul]
        congr 1
        omega
      omega

theorem ticksAux_lower (kdiv : Nat) (hk : 0 < kdiv) (hk2 : kdiv ≤ INT_MAX) :
    ∀ fuel interval, interval ≤ fuel →
      interval * kdiv
        ≤ 10000 * (ticksAux kdiv fuel interval + chunksAux kdiv fuel interval) := by
  intro fuel
  induction fuel with
  | zero =>
    intro interval hle
    have h0 : interval = 0 := by omega
    simp [ticksAux, chunksAux, h0]
  | succ fuel ih =>
    intro interval hle
    by_cases h0 : interval = 0
    · simp [ticksAux, chunksAux, h0]
    · simp only [ticksAux, chunksAux, if_neg h0]
      have hi1 := chunk_pos kdiv interval hk hk2 h0
      have hle2 : min interval (INT_MAX / kdiv) ≤ interval := Nat.min_le_left _ _
      have h1 := Nat.div_add_mod (min interval (INT_MAX / kdiv) * kdiv) 10000
      have h1b : min interval (INT_MAX / kdiv) * kdiv % 10000 < 10000 :=
        Nat.mod_lt _ (by norm_num)
      have h2 := ih (interval - min interval (INT_MAX / kdiv)) (by omega)
      have h3 : (interval - min interval (INT_MAX / kdiv)) * kdiv
          + min interval (INT_MAX / kdiv) * kdiv = interval * kdiv := by
        rw [← Nat.add_mul]
        congr 1
        omega
      omega

theorem sum_ticksOf_le (kdiv : Nat) (hk : 0 < kdiv) (hk2 : kdiv ≤ INT_MAX)
    (samples : List Nat) :
    10000 * (samples.map (ticksOf kdiv)).sum ≤ samples.sum * kdiv := by
  induction samples with
  | nil => simp
  | cons a rest ih =>
    simp only [List.map_cons, List.sum_cons]
    have h1 : 10000 * ticksOf kdiv a ≤ a * kdiv :=
      ticksAux_le kdiv hk hk2 a a le_rfl
    have h2 : (a + rest.sum) * kdiv = a * kdiv + rest.sum * kdiv := Nat.add_mul _ _ _
    omega

theorem sum_ticksOf_lower (kdiv : Nat) (hk : 0 < kdiv) (hk2 : kdiv ≤ INT_MAX)
    (samples : List Nat) :
    samples.sum * kdiv
      ≤ 10000 * ((samples.map (ticksOf kdiv)).sum
          + (samples.map (chunksOf kdiv)).sum) := by
  induction samples with
  | nil => simp
  | cons a rest ih =>
    simp only [List.map_cons, List.sum_cons]
    have h1 : a * kdiv ≤ 10000 * (ticksOf kdiv a + chunksOf kdiv a) :=
      ticksAux_lower kdiv hk hk2 a a le_rfl
    have h2 : (a + rest.sum) * kdiv = a * kdiv + rest.sum * kdiv := Nat.add_mul _ _ _
    omega

/-- Counterexample to C9 as stated: take the build's tick rate
`TIMERS_PER_SECOND = 1193181` (so `R/100 = 11931`) and the partition of
T = 20000 µs into four samples of 5000 µs.  Each sample's batch is 5965
ticks (floor of 5965.5), summing to 23860, while the single-sample batch for
T is 23862 — a difference of two ticks, exceeding the claimed tolerance of
one tick. -/
theorem C9_counterexample_tolerance :
    ([5000, 5000, 5000, 5000] : List Nat).sum = 20000
    ∧ (([5000, 5000, 5000, 5000] : List Nat).map (ticksOf 11931)).sum + 2
        = ticksOf 11931 20000
    ∧ ¬(ticksOf 11931 20000
        ≤ (([5000, 5000, 5000, 5000] : List Nat).map (ticksOf 11931)).sum + 1) :=
  ⟨by decide, by decide, by decide⟩

/-- C9 (amended): the chunked conversion loses strictly less than one tick
per chunk, never gains, so for every partition of a duration into samples the
summed batches and the single-sample batch differ by at most the number of
chunks the other computation performs (a tolerance of one tick per chunk —
not one tick overall, as the counterexample shows). -/
theorem C9_tick_conversion_amended (kdiv : Nat) (hk : 0 < kdiv)
    (hk2 : kdiv ≤ INT_MAX) (samples : List Nat) :
    ticksOf kdiv samples.sum
      ≤ (samples.map (ticksOf kdiv)).sum + (samples.map (chunksOf kdiv)).sum
    ∧ (samples.map (ticksOf kdiv)).sum
      ≤ ticksOf kdiv samples.sum + chunksOf kdiv samples.sum := by
  constructor
  · have hA : 10000 * ticksOf kdiv samples.sum ≤ samples.sum * kdiv :=
      ticksAux_le kdiv hk hk2 samples.sum samples.sum le_rfl
    have hB := sum_ticksOf_lower kdiv hk hk2 samples
    have := le_trans hA hB
    omega
  · have hA := sum_ticksOf_le kdiv hk hk2 samples
    have hB : samples.sum * kdiv
        ≤ 10000 * (ticksOf kdiv samples.sum + chunksOf kdiv samples.sum) :=
      ticksAux_lower kdiv hk hk2 samples.sum samples.sum le_rfl
    have := le_trans hA hB
    omega

/-- Witness for the amended C9 at rate divisor 11931 and the partition of
20000 µs into four samples of 5000 µs. -/
theorem C9_tick_conversion_amended_witness :
    ticksOf 11931 ([5000, 5000, 5000, 5000] : List Nat).sum
      ≤ (([5000, 5000, 5000, 5000] : List Nat).map (ticksOf 11931)).sum
        + (([5000, 5000, 5000, 5000] : List Nat).map (chunksOf 11931)).sum
    ∧ (([5000, 5000, 5000, 5000] : List Nat).map (ticksOf 11931)).sum
      ≤ ticksOf 11931 ([5000, 5000, 5000, 5000] : List Nat).sum
        + chunksOf 11931 ([5000, 5000, 5000, 5000] : List Nat).sum :=
  C9_tick_conversion_amended 11931 (by decide) (by decide) [5000, 5000, 5000, 5000]

/-! ### C10: bounds of the sentinel scans -/

/-- The indices at which the register scan `for (i = 0; funcs[i] && i <
MAX_FUNCS; i++)` (uthreads.c line 156) reads the `funcs` array.  The loop
condition reads `funcs[i]` before testing `i < MAX_FUNCS`, so the scan reads
every index from 0 up to and including its exit index — the first empty slot,
or `MAX_FUNCS` itself (one cell past the end of the array) when every slot is
occupied. -/
def registerScanReads (funcs : List (Option Handle)) : List Nat :=
  List.range (firstEmptyIdx funcs + 1)

/-- The indices at which the reaping loop `for (n = 0; stale_funcs[n]; n++)`
(uthreads.c line 102) reads the `stale_funcs` array before stopping.  The
condition has no bound at all: the loop reads indices 0 up to and including
the first empty slot — index `MAX_FUNCS`, one past the end, when the queue is
full (and even further if the memory beyond the array happens to be non-NULL;
the model records the reads up to the first sentinel encountered). -/
def drainScanReads (q : List (Option Handle)) : List Nat :=
  List.range (firstEmptyIdx q + 1)

/-- With a free slot the register scan stays within the array bounds. -/
theorem registerScanReads_in_bounds (funcs : List (Option Handle))
    (hlen : funcs.length = MAX_FUNCS) (hmem : none ∈ funcs) :
    ∀ i ∈ registerScanReads funcs, i < MAX_FUNCS := by
  intro i hi
  rw [registerScanReads, List.mem_range] at hi
  have := firstEmptyIdx_lt_length_of_mem funcs hmem
  omega

/-- C10 fails on the code: on a full `funcs` table the register scan reads
index `MAX_FUNCS` — one past the end of the 16-element array, because the C
condition evaluates `funcs[i]` before the bound test `i < MAX_FUNCS` — and on
a full `stale_funcs` queue the reaping loop likewise reads index `MAX_FUNCS`,
having no bound test at all. -/
theorem C10_scan_reads_out_of_bounds :
    MAX_FUNCS ∈ registerScanReads (List.replicate MAX_FUNCS (some 1))
    ∧ MAX_FUNCS ∈ drainScanReads (List.replicate MAX_FUNCS (some 1))
    ∧ (List.replicate MAX_FUNCS (some (1 : Handle))).length = MAX_FUNCS :=
  ⟨by decide, by decide, by decide⟩

end Uthreads
